import Mathlib

/-!
Verification development for the `ins` replicated coordination service
(Raft-style replication engine over a leveldb-backed binary log).

The definitions below are a shallow embedding of the C++ sources:
  * `src/storage/binlog.cc`  — `LogEntry::Dump` / `LogEntry::Load`, `BinLogger`
  * `src/server/ins_node_impl.cc` — RPC handlers and worker steps

C++ `std::string` payloads (users, keys, values, session ids) are modelled
as `List Nat` byte strings; server endpoint identifiers are modelled as
Lean `String` (only compared for equality).  Machine integers
(`int64_t`, `int32_t`) are modelled as `Int`/`Nat`; none of the modelled
quantities are near overflow in the modelled paths, and the 4- and 8-byte
on-disk frames carry explicit `% 2^32` / `% 2^64` style bounds where they
matter (see the serialization section).
-/

namespace Ins

/-- A C++ `std::string` viewed as a byte sequence. -/
abbrev ByteStr := List Nat

/-- Helper: the bytes of an ASCII literal (all string constants in the
source are ASCII, so codepoints and bytes coincide). -/
def strBytes (s : String) : ByteStr := s.data.map Char.toNat

/-- The log operation enum from the `ins_node.proto` interface
(the spec's op set {Nop, Put, Del, Lock, Unlock, Login, Logout, Register}).
The numeric codes are the proto enum values in declaration order; only
their injectivity and byte-sizedness matter to the claims below. -/
inductive LogOperation where
  | kNop | kPut | kDel | kLock | kUnLock | kLogin | kLogout | kRegister
deriving DecidableEq, Repr

/-- Numeric code of an op, as written by `static_cast<uint8_t>(op)`. -/
def LogOperation.code : LogOperation → Nat
  | .kNop => 0
  | .kPut => 1
  | .kDel => 2
  | .kLock => 3
  | .kUnLock => 4
  | .kLogin => 5
  | .kLogout => 6
  | .kRegister => 7

/-- Decoding of an op byte, as done by `static_cast<LogOperation>(opcode)`.
Codes outside the enum are collapsed to `kNop`; the claims only compare
decoded ops against specific constructors. -/
def LogOperation.ofCode : Nat → LogOperation
  | 0 => .kNop
  | 1 => .kPut
  | 2 => .kDel
  | 3 => .kLock
  | 4 => .kUnLock
  | 5 => .kLogin
  | 6 => .kLogout
  | 7 => .kRegister
  | _ => .kNop

/-- `struct LogEntry` from `src/storage/binlog.h`. -/
structure LogEntry where
  op : LogOperation
  user : ByteStr
  key : ByteStr
  value : ByteStr
  term : Int
deriving DecidableEq, Repr

/-! ### Log entry framing (`LogEntry::Dump` / `LogEntry::Load`,
`src/storage/binlog.cc` lines 16-85).

Multi-byte integers are serialized by `memcpy` in host byte order; the
build targets x86-64, so the embedding fixes little-endian. -/

/-- `w`-byte little-endian encoding of `n` (the bytes `memcpy` writes for a
`w`-byte integer holding `n`, on a little-endian host). -/
def leBytes : Nat → Nat → List Nat
  | 0, _ => []
  | w + 1, n => n % 256 :: leBytes w (n / 256)

/-- Value of a little-endian byte sequence. -/
def leVal : List Nat → Nat
  | [] => 0
  | b :: rest => b + 256 * leVal rest

/-- `LogEntry::Dump`: the byte frame
`op(1) | user_len(4) | user | key_len(4) | key | value_len(4) | value | term(8)`.
The term (an `int64_t`) is written in two's complement. -/
def LogEntry.dump (e : LogEntry) : List Nat :=
  e.op.code ::
    (leBytes 4 e.user.length ++ (e.user ++
     (leBytes 4 e.key.length ++ (e.key ++
     (leBytes 4 e.value.length ++ (e.value ++
     leBytes 8 (e.term % 2 ^ 64).toNat))))))

/-- `LogEntry::Load`: parse the frame produced by `Dump`.  Each length
field drives how many bytes the following `memcpy` consumes; the trailing
8 bytes are the two's-complement term. -/
def LogEntry.load (buf : List Nat) : LogEntry :=
  let op := LogOperation.ofCode (buf.headD 0)
  let r1 := buf.drop 1
  let userSize := leVal (r1.take 4)
  let user := (r1.drop 4).take userSize
  let r2 := (r1.drop 4).drop userSize
  let keySize := leVal (r2.take 4)
  let key := (r2.drop 4).take keySize
  let r3 := (r2.drop 4).drop keySize
  let valueSize := leVal (r3.take 4)
  let value := (r3.drop 4).take valueSize
  let r4 := (r3.drop 4).drop valueSize
  let termNat := leVal (r4.take 8)
  let term : Int :=
    if termNat < 2 ^ 63 then (termNat : Int) else (termNat : Int) - 2 ^ 64
  ⟨op, user, key, value, term⟩

/-! ### `BinLogger` (`src/storage/binlog.cc`)

The log lives in a leveldb database: one slot per key `IntToString(index)`
(8-byte index) holding the dumped entry, plus the reserved `#BINLOG_LEN#`
key holding the current length.  The embedding keys slots by their `Int`
index and stores the decoded `LogEntry` (the byte frame is proved faithful
by the `Dump`/`Load` round trip above); `db` is an association list whose
most recent binding wins, which is exactly leveldb's overwrite semantics. -/

structure BinLoggerState where
  db : List (Int × LogEntry)
  length : Int
  lastLogTerm : Int
deriving DecidableEq, Repr

/-- A fresh, empty binlog (no slots, `length_ = 0`, `last_log_term_ = -1`). -/
def BinLoggerState.empty : BinLoggerState := ⟨[], 0, -1⟩

/-- `BinLogger::ReadSlot`: a plain point lookup of the slot key; note that
it does NOT consult `length_`. -/
def BinLoggerState.readSlot (st : BinLoggerState) (i : Int) : Option LogEntry :=
  (st.db.find? (fun p => p.1 = i)).map (·.2)

/-- `BinLogger::AppendEntry`: write the entry at slot `length_`, bump the
length, cache the entry's term as `last_log_term_`. -/
def BinLoggerState.appendEntry (st : BinLoggerState) (e : LogEntry) : BinLoggerState :=
  { db := (st.length, e) :: st.db
    length := st.length + 1
    lastLogTerm := e.term }

/-- `BinLogger::AppendEntryList`: one batch writing each entry at
consecutive slots starting at `length_`; `last_log_term_` ends at the last
entry's term.  (Folding `appendEntry` reproduces the batch's net effect.) -/
def BinLoggerState.appendEntryList (st : BinLoggerState) (es : List LogEntry) : BinLoggerState :=
  es.foldl BinLoggerState.appendEntry st

/-- `BinLogger::GetLastLogIndex` (`length_ - 1`). -/
def BinLoggerState.lastLogIndex (st : BinLoggerState) : Int := st.length - 1

/-- `BinLogger::Truncate(trunk_slot_index)`: clamp the argument to `≥ -1`,
rewrite only the `#BINLOG_LEN#` key to `trunk_slot_index + 1`, and re-read
the new tail entry's term.  Slot contents are left untouched.  (When the
new length is positive the C++ asserts that the tail slot is readable; the
embedding keeps the old cached term in that unreachable case.) -/
def BinLoggerState.truncate (st : BinLoggerState) (i : Int) : BinLoggerState :=
  let i' := if i < -1 then -1 else i
  let len := i' + 1
  { db := st.db
    length := len
    lastLogTerm :=
      if 0 < len then
        match st.readSlot (len - 1) with
        | some e => e.term
        | none => st.lastLogTerm
      else st.lastLogTerm }

/-! ### Node-level data model (`src/server/ins_node_impl.cc`) -/

/-- `NodeStatus` from the proto interface. -/
inductive NodeStatus where
  | kFollower | kCandidate | kLeader
deriving DecidableEq, Repr

/-- `InsNodeImpl::ParseValue`: stored values carry a one-byte op tag in
front of the payload.  (On an empty string the C++ leaves the outputs
untouched; no stored value written by the apply path is empty, and the
embedding returns `(kNop, [])` there.) -/
def parseValue (v : ByteStr) : LogOperation × ByteStr :=
  match v with
  | [] => (.kNop, [])
  | b :: rest => (LogOperation.ofCode b, rest)

/-- `InsNodeImpl::IsExpiredSession`: a session is expired iff it is absent
from the volatile session table (modelled by the list of live session
ids). -/
def isExpiredSession (sessions : List ByteStr) (sessionId : ByteStr) : Bool :=
  ¬ sessions.contains sessionId

/-- The state touched by the `Vote` and `AppendEntries` handlers.
`votedFor` is the `voted_for_` map (term → candidate id). -/
structure NodeState where
  currentTerm : Int
  status : NodeStatus
  votedFor : List (Int × String)
  commitIndex : Int
  lastApplied : Int
  currentLeader : String
  heartbeatCount : Int
  binlog : BinLoggerState
deriving DecidableEq, Repr

/-- `InsNodeImpl::TransToFollower`: revert to follower and adopt (and
persist) the higher term. -/
def transToFollower (st : NodeState) (newTerm : Int) : NodeState :=
  { st with status := .kFollower, currentTerm := newTerm }

structure AppendEntriesRequest where
  term : Int
  leaderId : String
  prevLogIndex : Int
  prevLogTerm : Int
  leaderCommitIndex : Int
  entries : List LogEntry
deriving DecidableEq, Repr

structure AppendEntriesResponse where
  currentTerm : Int
  success : Bool
  logLength : Int
  isBusy : Bool
deriving DecidableEq, Repr

/-- Common tail of `InsNodeImpl::DoAppendEntries` (lines 780-792): set
`commit_index_ = min(last log index, request.leader_commit_index)`, signal
the committer when it grew, reply success. -/
def finishAppendEntries (st : NodeState) (req : AppendEntriesRequest) :
    NodeState × AppendEntriesResponse :=
  ({ st with commitIndex := min st.binlog.lastLogIndex req.leaderCommitIndex },
   ⟨st.currentTerm, true, st.binlog.length, false⟩)

/-- The entries-processing part of `DoAppendEntries` (lines 729-779), run
after the handler has stepped to follower, adopted the term and recorded
the leader.  `none` models the C++ `assert` aborting on an unreadable
slot. -/
def doAppendEntriesBody (maxCommitPending : Int) (st : NodeState)
    (req : AppendEntriesRequest) : Option (NodeState × AppendEntriesResponse) :=
  if req.entries.length > 0 then
    if req.prevLogIndex ≥ st.binlog.length then
      some (st, ⟨st.currentTerm, false, st.binlog.length, false⟩)
    else
      match (if req.prevLogIndex ≥ 0 then
          (st.binlog.readSlot req.prevLogIndex).map (·.term) else some (-1)) with
      | none => none
      | some prevTerm =>
          if prevTerm ≠ req.prevLogTerm then
            some ({ st with binlog := st.binlog.truncate (req.prevLogIndex - 1) },
              ⟨st.currentTerm, false, (st.binlog.truncate (req.prevLogIndex - 1)).length,
                false⟩)
          else if st.commitIndex - st.lastApplied > maxCommitPending then
            some (st, ⟨st.currentTerm, false, st.binlog.length, true⟩)
          else
            some (finishAppendEntries
              { st with binlog :=
                  (if st.binlog.length > req.prevLogIndex + 1 then
                    st.binlog.truncate req.prevLogIndex
                  else st.binlog).appendEntryList req.entries } req)
  else some (finishAppendEntries st req)

/-- `InsNodeImpl::DoAppendEntries` (lines 700-793), the follower-side
handler for heartbeats and log replication: reject an outdated term,
otherwise step to follower, adopt a strictly higher term, record the
leader, bump the heartbeat counter, and process the entries. -/
def doAppendEntries (maxCommitPending : Int) (st : NodeState)
    (req : AppendEntriesRequest) : Option (NodeState × AppendEntriesResponse) :=
  if req.term < st.currentTerm then
    some (st, ⟨st.currentTerm, false, st.binlog.length, false⟩)
  else
    doAppendEntriesBody maxCommitPending
      { st with status := .kFollower,
                currentTerm := if st.currentTerm < req.term then req.term
                  else st.currentTerm,
                currentLeader := req.leaderId,
                heartbeatCount := st.heartbeatCount + 1 } req

/-! ### Leader commit advancement (`InsNodeImpl::UpdateCommitIndex`,
lines 873-886) -/

/-- Lookup in the `match_index_` map with `std::map::operator[]` default:
an absent key reads as the value-initialized `0`. -/
def lookupMatch (mi : List (String × Int)) (s : String) : Int :=
  ((mi.find? (fun p => p.1 = s)).map (·.2)).getD 0

/-- The side effect of iterating `match_index_[server]` over all members:
every member absent from the map gets a default `0` entry inserted. -/
def insertDefaults (mi : List (String × Int)) (members : List String) :
    List (String × Int) :=
  members.foldl
    (fun m s => if (m.find? (fun p => p.1 = s)).isSome then m else m ++ [(s, 0)]) mi

/-- `InsNodeImpl::UpdateCommitIndex(a_index)`: count members whose
`match_index_[server] ≥ a_index` (the `operator[]` access inserts default
`0` for absent members, the leader itself included); advance and signal
when `match_count >= match_index_.size() / 2` and `a_index >
commit_index_`.  Returns the new commit index and whether the committer
was signalled. -/
def updateCommitIndex (members : List String) (matchIndex : List (String × Int))
    (commitIndex : Int) (aIndex : Int) : Int × Bool :=
  if (members.filter
        (fun s => lookupMatch (insertDefaults matchIndex members) s ≥ aIndex)).length
      ≥ (insertDefaults matchIndex members).length / 2 ∧ aIndex > commitIndex then
    (aIndex, true)
  else
    (commitIndex, false)

/-- Claim C2's condition, following the spec's words (§4.5.4): strictly
more than `N/2` of the cluster members — counting the leader itself —
have `match_index ≥ idx`, AND `idx > commit_index`, AND the log entry at
`idx` carries the current term.  Stated over the same inputs as
`updateCommitIndex` plus the leader id, the current term and the term
stored at `idx`. -/
def specUpdateCommitCond (members : List String) (matchIndex : List (String × Int))
    (commitIndex : Int) (aIndex : Int) (self : String) (currentTerm : Int)
    (termAtIdx : Option Int) : Prop :=
  2 * (members.filter (fun s => s = self ∨ lookupMatch matchIndex s ≥ aIndex)).length
      > members.length
    ∧ aIndex > commitIndex
    ∧ termAtIdx = some currentTerm

instance (members : List String) (matchIndex : List (String × Int))
    (commitIndex aIndex : Int) (self : String) (currentTerm : Int)
    (termAtIdx : Option Int) :
    Decidable (specUpdateCommitCond members matchIndex commitIndex aIndex self
      currentTerm termAtIdx) := by
  unfold specUpdateCommitCond
  infer_instance

/-! ### `Vote` (`InsNodeImpl::Vote`, lines 808-871) -/

structure VoteRequest where
  term : Int
  candidateId : String
  lastLogIndex : Int
  lastLogTerm : Int
deriving DecidableEq, Repr

structure VoteResponse where
  term : Int
  voteGranted : Bool
deriving DecidableEq, Repr

/-- Lookup in the `voted_for_` map. -/
def votedForLookup (vf : List (Int × String)) (t : Int) : Option String :=
  (vf.find? (fun p => p.1 = t)).map (·.2)

/-- The final stage of `InsNodeImpl::Vote` (lines 849-869): each term's
vote goes to at most one candidate — reject a conflicting candidate,
otherwise grant (recording the vote if this term had none yet). -/
def voteTally (st : NodeState) (req : VoteRequest) : NodeState × VoteResponse :=
  match votedForLookup st.votedFor st.currentTerm with
  | some c =>
      if c ≠ req.candidateId then (st, ⟨st.currentTerm, false⟩)
      else (st, ⟨st.currentTerm, true⟩)
  | none =>
      ({ st with votedFor := (st.currentTerm, req.candidateId) :: st.votedFor },
       ⟨st.currentTerm, true⟩)

/-- `InsNodeImpl::Vote`: reject an outdated term; reject a candidate whose
log is behind; only then adopt a strictly higher term (stepping down); and
finally tally the vote. -/
def vote (st : NodeState) (req : VoteRequest) : NodeState × VoteResponse :=
  if req.term < st.currentTerm then
    (st, ⟨st.currentTerm, false⟩)
  else if req.lastLogTerm < st.binlog.lastLogTerm then
    (st, ⟨st.currentTerm, false⟩)
  else if req.lastLogTerm = st.binlog.lastLogTerm
      ∧ req.lastLogIndex < st.binlog.lastLogIndex then
    (st, ⟨st.currentTerm, false⟩)
  else
    voteTally
      (if req.term > st.currentTerm then transToFollower st req.term else st) req

/-- The candidate log up-to-dateness test of the claim (and of the code's
two rejection branches combined). -/
def logUpToDate (st : NodeState) (req : VoteRequest) : Prop :=
  req.lastLogTerm > st.binlog.lastLogTerm
    ∨ (req.lastLogTerm = st.binlog.lastLogTerm
        ∧ req.lastLogIndex ≥ st.binlog.lastLogIndex)

/-- Claim C3's grant condition, following the spec's words: term not
outdated, candidate log at least as up to date, and no conflicting vote at
the (possibly adopted) current term. -/
def specVoteGrant (st : NodeState) (req : VoteRequest) : Prop :=
  req.term ≥ st.currentTerm
    ∧ logUpToDate st req
    ∧ (votedForLookup st.votedFor (max st.currentTerm req.term) = none
        ∨ votedForLookup st.votedFor (max st.currentTerm req.term) = some req.candidateId)

instance (st : NodeState) (req : VoteRequest) : Decidable (logUpToDate st req) := by
  unfold logUpToDate
  infer_instance

instance (st : NodeState) (req : VoteRequest) : Decidable (specVoteGrant st req) := by
  unfold specVoteGrant
  infer_instance

/-! ### Client request admission (`InsNodeImpl::Get/Put/Delete/Lock/UnLock/Scan/Watch`)

Each handler starts with a chain of early-return rejections; the chain is
modelled as a function to `Admission`.  A rejection always sets
`success=false` (or an error status) together with the reported leader id
and the `uuid_expired` flag. -/

/-- The state the admission chains read. -/
structure SurfaceState where
  status : NodeStatus
  currentLeader : String
  inSafeMode : Bool
  loggedInUuids : List ByteStr
  now : Int
  serverStartTimestamp : Int
  sessionExpireTimeout : Int
  clientAckSize : Int
  maxWritePending : Int
deriving DecidableEq, Repr

inductive Admission where
  | reject (leaderId : String) (uuidExpired : Bool)
  | proceed
deriving DecidableEq, Repr

/-- `InsNodeImpl::Get` admission (lines 1018-1052): follower, candidate,
safe-mode leader, unknown login token. -/
def getAdmission (s : SurfaceState) (uuid : ByteStr) : Admission :=
  if s.status = .kFollower then .reject s.currentLeader false
  else if s.status = .kCandidate then .reject "" false
  else if s.status = .kLeader ∧ s.inSafeMode then .reject "" false
  else if uuid ≠ [] ∧ ¬ s.loggedInUuids.contains uuid then .reject "" true
  else .proceed

/-- `InsNodeImpl::Lock` admission (lines 1281-1321): follower, candidate,
unknown token, safe-mode leader, and the startup grace window
(`now − server_start < session_expire_timeout`). -/
def lockAdmission (s : SurfaceState) (uuid : ByteStr) : Admission :=
  if s.status = .kFollower then .reject s.currentLeader false
  else if s.status = .kCandidate then .reject "" false
  else if uuid ≠ [] ∧ ¬ s.loggedInUuids.contains uuid then .reject "" true
  else if s.status = .kLeader ∧ s.inSafeMode then .reject "" false
  else if s.status = .kLeader ∧ s.now - s.serverStartTimestamp < s.sessionExpireTimeout then
    .reject "" false
  else .proceed

/-- `InsNodeImpl::Scan` admission (lines 1368-1409): same chain as `Lock`. -/
def scanAdmission (s : SurfaceState) (uuid : ByteStr) : Admission :=
  if s.status = .kFollower then .reject s.currentLeader false
  else if s.status = .kCandidate then .reject "" false
  else if uuid ≠ [] ∧ ¬ s.loggedInUuids.contains uuid then .reject "" true
  else if s.status = .kLeader ∧ s.inSafeMode then .reject "" false
  else if s.status = .kLeader ∧ s.now - s.serverStartTimestamp < s.sessionExpireTimeout then
    .reject "" false
  else .proceed

/-- `InsNodeImpl::Watch` admission (lines 1795-1819): follower, candidate,
unknown token — and nothing else: the handler never consults
`in_safe_mode_`. -/
def watchAdmission (s : SurfaceState) (uuid : ByteStr) : Admission :=
  if s.status = .kFollower then .reject s.currentLeader false
  else if s.status = .kCandidate then .reject "" false
  else if uuid ≠ [] ∧ ¬ s.loggedInUuids.contains uuid then .reject "" true
  else .proceed

/-- Past admission, `Watch` unconditionally registers the one-shot watch
event; the result records whether the registration happened. -/
def watchHandler (s : SurfaceState) (uuid : ByteStr) : Bool :=
  match watchAdmission s uuid with
  | .proceed => true
  | _ => false

/-- `InsNodeImpl::Put` admission (lines 1182-1211): follower, candidate,
write-pending bound, unknown token. -/
def putAdmission (s : SurfaceState) (uuid : ByteStr) : Admission :=
  if s.status = .kFollower then .reject s.currentLeader false
  else if s.status = .kCandidate then .reject "" false
  else if s.clientAckSize > s.maxWritePending then .reject "" false
  else if uuid ≠ [] ∧ ¬ s.loggedInUuids.contains uuid then .reject "" true
  else .proceed

/-- `InsNodeImpl::Delete` admission (lines 1127-1149). -/
def delAdmission (s : SurfaceState) (uuid : ByteStr) : Admission :=
  if s.status = .kFollower then .reject s.currentLeader false
  else if s.status = .kCandidate then .reject "" false
  else if uuid ≠ [] ∧ ¬ s.loggedInUuids.contains uuid then .reject "" true
  else .proceed

/-- `InsNodeImpl::UnLock` admission (lines 1867-1889): same chain as
`Delete`. -/
def unlockAdmission (s : SurfaceState) (uuid : ByteStr) : Admission :=
  if s.status = .kFollower then .reject s.currentLeader false
  else if s.status = .kCandidate then .reject "" false
  else if uuid ≠ [] ∧ ¬ s.loggedInUuids.contains uuid then .reject "" true
  else .proceed

/-- Past admission, `Put` appends a `kPut` entry and registers a pending
ack; result records the binlog and whether the append happened. -/
def putHandler (s : SurfaceState) (uuid : ByteStr) (binlog : BinLoggerState)
    (entry : LogEntry) : BinLoggerState × Bool :=
  match putAdmission s uuid with
  | .proceed => (binlog.appendEntry entry, true)
  | _ => (binlog, false)

/-- Past admission, `Delete` appends a `kDel` entry. -/
def delHandler (s : SurfaceState) (uuid : ByteStr) (binlog : BinLoggerState)
    (entry : LogEntry) : BinLoggerState × Bool :=
  match delAdmission s uuid with
  | .proceed => (binlog.appendEntry entry, true)
  | _ => (binlog, false)

/-- Past admission, `UnLock` appends a `kUnLock` entry. -/
def unlockHandler (s : SurfaceState) (uuid : ByteStr) (binlog : BinLoggerState)
    (entry : LogEntry) : BinLoggerState × Bool :=
  match unlockAdmission s uuid with
  | .proceed => (binlog.appendEntry entry, true)
  | _ => (binlog, false)

/-! ### Lock availability (`InsNodeImpl::LockIsAvailable`, lines 1236-1271) -/

/-- `InsNodeImpl::LockIsAvailable(user, key, session_id)`.  `storeVal` is
the result of `data_store_->Get(user, key, ...)` (`none` when the status
is not `kOk`); `sessions` is the live session table. -/
def lockIsAvailable (sessions : List ByteStr) (storeVal : Option ByteStr)
    (sessionId : ByteStr) : Bool :=
  match storeVal with
  | none => sessions.contains sessionId
  | some v =>
      let pr := parseValue v
      if pr.1 ≠ .kLock then false
      else if ¬ sessions.contains pr.2 ∧ sessions.contains sessionId then true
      else if sessions.contains pr.2 ∧ pr.2 = sessionId then true
      else false

/-- Claim C6's grant condition, following the spec's words: (a) the key is
unset and the caller's session exists, or (b) the stored value is
Lock-tagged with an expired owner and the caller's session exists, or (c)
the stored value is Lock-tagged and owned by the caller's own session. -/
def specLockAvail (sessions : List ByteStr) (storeVal : Option ByteStr)
    (sessionId : ByteStr) : Prop :=
  match storeVal with
  | none => sessionId ∈ sessions
  | some v =>
      (parseValue v).1 = .kLock
        ∧ (((parseValue v).2 ∉ sessions ∧ sessionId ∈ sessions)
            ∨ (parseValue v).2 = sessionId)

instance (sessions : List ByteStr) (storeVal : Option ByteStr) (sessionId : ByteStr) :
    Decidable (specLockAvail sessions storeVal sessionId) := by
  unfold specLockAvail
  cases storeVal <;> infer_instance

/-- Past admission, `Lock` grants iff `LockIsAvailable`; on grant it
optimistically writes the Lock-tagged session into the store and appends a
`kLock` entry.  The result records the optimistic store write (if any),
the binlog and whether the append happened. -/
def lockHandler (s : SurfaceState) (uuid : ByteStr) (sessions : List ByteStr)
    (storeVal : Option ByteStr) (user key sessionId : ByteStr) (currentTerm : Int)
    (binlog : BinLoggerState) : Option ByteStr × BinLoggerState × Bool :=
  match lockAdmission s uuid with
  | .proceed =>
      if lockIsAvailable sessions storeVal sessionId then
        (some (LogOperation.kLock.code :: sessionId),
         binlog.appendEntry ⟨.kLock, user, key, sessionId, currentTerm⟩,
         true)
      else (none, binlog, false)
  | _ => (none, binlog, false)

/-! ### `Scan` (`InsNodeImpl::Scan`, lines 1411-1462) -/

/-- `sMaxPBSize = 26 << 20`. -/
def sMaxPBSize : Nat := 26 * 2 ^ 20

/-- The bookkeeping key `#TAG_LAST_APPLIED_INDEX#`. -/
def tagLastAppliedIndex : ByteStr := strBytes "#TAG_LAST_APPLIED_INDEX#"

/-- leveldb's bytewise comparator (`it->key() < end_key`). -/
def bytesLt : ByteStr → ByteStr → Bool
  | _, [] => false
  | [], _ :: _ => true
  | a :: as, b :: bs => if a < b then true else if a = b then bytesLt as bs else false

structure ScanAcc where
  items : List (ByteStr × ByteStr)
  count : Int
  pbSize : Nat
  hasMore : Bool
deriving DecidableEq, Repr

/-- The `Scan` iteration loop over the ordered store contents from
`Seek(start_key)` onward (`entries`, given in iteration order, values as
stored — tag byte included). -/
def scanLoop (sessions : List ByteStr) (endKey : ByteStr) (sizeLimit : Int) :
    List (ByteStr × ByteStr) → ScanAcc → ScanAcc
  | [], acc => acc
  | (k, v) :: rest, acc =>
      if ¬ (bytesLt k endKey ∨ endKey = []) then acc
      else if acc.count > sizeLimit then { acc with hasMore := true }
      else if acc.pbSize > sMaxPBSize then { acc with hasMore := true }
      else if k = tagLastAppliedIndex then scanLoop sessions endKey sizeLimit rest acc
      else
        let pr := parseValue v
        if pr.1 = .kLock ∧ isExpiredSession sessions pr.2 then
          scanLoop sessions endKey sizeLimit rest acc
        else
          scanLoop sessions endKey sizeLimit rest
            { items := acc.items ++ [(k, pr.2)]
              count := acc.count + 1
              pbSize := acc.pbSize + k.length + pr.2.length
              hasMore := acc.hasMore }

/-- `Scan`'s result from a fresh accumulator. -/
def scanEntries (sessions : List ByteStr) (endKey : ByteStr) (sizeLimit : Int)
    (entries : List (ByteStr × ByteStr)) : ScanAcc :=
  scanLoop sessions endKey sizeLimit entries ⟨[], 0, 0, false⟩

/-! ### Log application to the KV store (`InsNodeImpl::CommitIndexObserv`,
lines 221-407, and `TouchParentKey`, lines 1669-1680)

The per-namespace stores are modelled as one association list keyed by
(user, key); `kUnknownUser` healing via the lazy `OpenDatabase` always
succeeds (the database is created on demand), so its net effect is the
plain put/delete.  Watch triggering and session-lock bookkeeping are side
channels not modelled here. -/

abbrev KVStore := List ((ByteStr × ByteStr) × ByteStr)

def storeGet (db : KVStore) (user key : ByteStr) : Option ByteStr :=
  (db.find? (fun p => p.1 = (user, key))).map (·.2)

def storePut (db : KVStore) (user key v : ByteStr) : KVStore :=
  ((user, key), v) :: db

def storeDelete (db : KVStore) (user key : ByteStr) : KVStore :=
  db.filter (fun p => ¬ p.1 = (user, key))

/-- `InsNodeImpl::GetParentKey`: the prefix up to the last `/` (byte 47),
or `none` when the key has no `/`. -/
def parentKey : ByteStr → Option ByteStr
  | [] => none
  | c :: rest =>
      match parentKey rest with
      | some p => some (c :: p)
      | none => if c = 47 then some [] else none

/-- `InsNodeImpl::TouchParentKey(user, key, changed_session, action)`:
when the key has a parent, put `tag(kPut) ++ action ++ "," ++
changed_session` at the parent key in the user's namespace. -/
def touchParentKey (db : KVStore) (user key changedSession action : ByteStr) : KVStore :=
  match parentKey key with
  | some p =>
      storePut db user p (LogOperation.kPut.code :: (action ++ [44] ++ changedSession))
  | none => db

/-- The KV-store effect of applying one log entry in
`CommitIndexObserv`.  `kPut`/`kLock` store the tagged value (and `kLock`
touches the parent); `kDel` deletes; `kUnLock` is a conditional delete
that touches the parent only when it fires; the remaining ops do not write
this store. -/
def applyEntryStore (db : KVStore) (e : LogEntry) : KVStore :=
  match e.op with
  | .kPut => storePut db e.user e.key (e.op.code :: e.value)
  | .kLock =>
      let db := storePut db e.user e.key (e.op.code :: e.value)
      touchParentKey db e.user e.key e.value (strBytes "lock")
  | .kDel => storeDelete db e.user e.key
  | .kUnLock =>
      match storeGet db e.user e.key with
      | some v =>
          let pr := parseValue v
          if pr.1 = .kLock ∧ pr.2 = e.value then
            touchParentKey (storeDelete db e.user e.key) e.user e.key pr.2
              (strBytes "unlock")
          else db
      | none => db
  | _ => db

/-! ### Read serving (`InsNodeImpl::Get`, local branch lines 1081-1116, and
`InsNodeImpl::HeartbeatForReadCallback`, lines 480-524)

Both paths serve the reply from the stored value with the identical block:
a missing key is a successful miss; a Lock-tagged value whose owner
expired also reports `hit=false` with `success=true`. -/

structure GetReply where
  success : Bool
  hit : Bool
  value : ByteStr
  leaderId : String
deriving DecidableEq, Repr

/-- Serve a `Get` from the store lookup result (`none` when
`data_store_->Get` did not return `kOk`). -/
def serveGetFromStore (sessions : List ByteStr) (stored : Option ByteStr) : GetReply :=
  match stored with
  | some v =>
      let pr := parseValue v
      if pr.1 = .kLock then
        if isExpiredSession sessions pr.2 then ⟨true, false, [], ""⟩
        else ⟨true, true, pr.2, ""⟩
      else ⟨true, true, pr.2, ""⟩
  | none => ⟨true, false, [], ""⟩

/-! ### End of the definitions; theorems follow. -/


/-! ## Theorems -/

theorem LogOperation.ofCode_code (op : LogOperation) :
    LogOperation.ofCode op.code = op := by
  cases op <;> rfl

theorem leBytes_length (w n : Nat) : (leBytes w n).length = w := by
  induction w generalizing n with
  | zero => rfl
  | succ w ih => simp [leBytes, ih]

theorem leVal_leBytes (w n : Nat) : leVal (leBytes w n) = n % 256 ^ w := by
  induction w generalizing n with
  | zero => simp [leBytes, leVal, Nat.mod_one]
  | succ w ih =>
      rw [leBytes, leVal, ih, pow_succ, mul_comm (256 ^ w) 256, Nat.mod_mul]

theorem leVal_leBytes_of_lt {w n : Nat} (h : n < 256 ^ w) :
    leVal (leBytes w n) = n := by
  rw [leVal_leBytes, Nat.mod_eq_of_lt h]

theorem take_append_length (a b : List Nat) : (a ++ b).take a.length = a := by
  simp

theorem drop_append_length (a b : List Nat) : (a ++ b).drop a.length = b := by
  simp

theorem take_leBytes (w n : Nat) (rest : List Nat) :
    (leBytes w n ++ rest).take w = leBytes w n := by
  have h := take_append_length (leBytes w n) rest
  rwa [leBytes_length] at h

theorem drop_leBytes (w n : Nat) (rest : List Nat) :
    (leBytes w n ++ rest).drop w = rest := by
  have h := drop_append_length (leBytes w n) rest
  rwa [leBytes_length] at h

/-- Two's-complement round trip for the 8-byte term field. -/
theorem term_roundtrip (t : Int) (h1 : -2 ^ 63 ≤ t) (h2 : t < 2 ^ 63) :
    (if (t % 2 ^ 64).toNat < 2 ^ 63 then ((t % 2 ^ 64).toNat : Int)
     else ((t % 2 ^ 64).toNat : Int) - 2 ^ 64) = t := by
  norm_num at h1 h2 ⊢
  split_ifs with h <;> omega

theorem emod_toNat_lt (t : Int) : (t % 2 ^ 64).toNat < 2 ^ 64 := by
  norm_num
  omega

/-! ### Claim C10 — a missing key is a successful miss -/

/-- C10: when a `Get` is served from the store (locally by a non-safe-mode
leader, or on the quorum-read completion path in
`HeartbeatForReadCallback`) and the requested key is absent, the response
carries `success=true`, `hit=false` and an empty `leader_id` — a missing
key is reported as a successful miss, never as a request failure. -/
theorem get_absent_key_successful_miss (sessions : List ByteStr) :
    serveGetFromStore sessions none =
      { success := true, hit := false, value := [], leaderId := "" } := rfl

/-! ### Claim C9 — log entry framing and serialization round trip -/

/-- C9: `LogEntry::Dump` produces exactly the frame
`op(1) | user_len(4) | user | key_len(4) | key | value_len(4) | value |
term(8)` of total length `21 + |user| + |key| + |value|`, and
`LogEntry::Load` applied to that buffer reconstructs the entry. -/
theorem logEntry_dump_load_roundtrip (e : LogEntry)
    (hu : e.user.length < 2 ^ 32) (hk : e.key.length < 2 ^ 32)
    (hv : e.value.length < 2 ^ 32)
    (ht1 : -2 ^ 63 ≤ e.term) (ht2 : e.term < 2 ^ 63) :
    e.dump.length = 21 + e.user.length + e.key.length + e.value.length
      ∧ LogEntry.load e.dump = e := by
  obtain ⟨op, user, key, value, term⟩ := e
  simp only at hu hk hv ht1 ht2
  constructor
  · simp only [LogEntry.dump, List.length_cons, List.length_append, leBytes_length]
    omega
  · have hu' : leVal (leBytes 4 user.length) = user.length :=
      leVal_leBytes_of_lt (by norm_num at hu ⊢; omega)
    have hk' : leVal (leBytes 4 key.length) = key.length :=
      leVal_leBytes_of_lt (by norm_num at hk ⊢; omega)
    have hv' : leVal (leBytes 4 value.length) = value.length :=
      leVal_leBytes_of_lt (by norm_num at hv ⊢; omega)
    have htake8 : (leBytes 8 (term % 2 ^ 64).toNat).take 8
        = leBytes 8 (term % 2 ^ 64).toNat := by
      have h := take_leBytes 8 (term % 2 ^ 64).toNat []
      simpa using h
    have ht' : leVal (leBytes 8 (term % 2 ^ 64).toNat) = (term % 2 ^ 64).toNat :=
      leVal_leBytes_of_lt (by have := emod_toNat_lt term; norm_num at this ⊢; omega)
    simp only [LogEntry.dump, LogEntry.load, List.headD_cons, List.drop_succ_cons,
      List.drop_zero, take_leBytes, drop_leBytes, hu', hk', hv',
      take_append_length, drop_append_length, htake8, ht',
      LogOperation.ofCode_code]
    rw [term_roundtrip term ht1 ht2]

/-- C9 witness: the round trip at a concrete entry. -/
theorem logEntry_dump_load_roundtrip_witness :
    (LogEntry.dump ⟨.kPut, [117], [107, 49], [118, 118], 5⟩).length
        = 21 + ([117] : ByteStr).length + ([107, 49] : ByteStr).length
            + ([118, 118] : ByteStr).length
      ∧ LogEntry.load (LogEntry.dump ⟨.kPut, [117], [107, 49], [118, 118], 5⟩)
          = ⟨.kPut, [117], [107, 49], [118, 118], 5⟩ :=
  logEntry_dump_load_roundtrip ⟨.kPut, [117], [107, 49], [118, 118], 5⟩
    (by norm_num) (by norm_num) (by norm_num) (by norm_num) (by norm_num)

/-! ### Claim C4 — binlog truncation -/

/-- C4 counterexample: after `Truncate(0)` on a two-entry log, the length
is `1` but `ReadSlot(1)` still returns the truncated entry — `ReadSlot`
never consults the length, so the stale tail slot stays observable. -/
theorem truncate_stale_slot_observable :
    ((BinLoggerState.empty.appendEntry ⟨.kPut, [], [97], [120], 3⟩
        |>.appendEntry ⟨.kPut, [], [98], [121], 3⟩).truncate 0).length = 1
      ∧ ((BinLoggerState.empty.appendEntry ⟨.kPut, [], [97], [120], 3⟩
            |>.appendEntry ⟨.kPut, [], [98], [121], 3⟩).truncate 0).readSlot 1
          = some ⟨.kPut, [], [98], [121], 3⟩ := by
  constructor <;> rfl

/-- C4 (amended): `Truncate(last_kept_index)` sets the log length to
`last_kept_index + 1` and a subsequent append is written at the new
length; but `ReadSlot` is not length-gated, so a slot index beyond
`last_kept_index` keeps returning whatever the underlying database holds
(truncation rewrites only the `#BINLOG_LEN#` key) — only readers that
bound their reads by the length never observe the truncated tail. -/
theorem truncate_amended (st : BinLoggerState) (i : Int) (h : -1 ≤ i)
    (e : LogEntry) :
    (st.truncate i).length = i + 1
      ∧ ((st.truncate i).appendEntry e).readSlot (i + 1) = some e
      ∧ ((st.truncate i).appendEntry e).length = i + 2
      ∧ (∀ j : Int, (st.truncate i).readSlot j = st.readSlot j) := by
  have hc : ¬ i < -1 := by omega
  refine ⟨?_, ?_, ?_, ?_⟩
  · simp [BinLoggerState.truncate, hc]
  · simp [BinLoggerState.truncate, BinLoggerState.appendEntry,
      BinLoggerState.readSlot, hc, List.find?]
  · simp [BinLoggerState.truncate, BinLoggerState.appendEntry, hc]
    omega
  · intro j
    simp [BinLoggerState.truncate, BinLoggerState.readSlot]

/-- C4 witness: the amended statement at `Truncate(0)` of a two-entry
log. -/
theorem truncate_amended_witness :
    ((-1 : Int) ≤ 0)
      ∧ (((BinLoggerState.empty.appendEntry ⟨.kPut, [], [97], [120], 3⟩
            |>.appendEntry ⟨.kPut, [], [98], [121], 3⟩).truncate 0).length = 0 + 1
          ∧ (((BinLoggerState.empty.appendEntry ⟨.kPut, [], [97], [120], 3⟩
                |>.appendEntry ⟨.kPut, [], [98], [121], 3⟩).truncate 0).appendEntry
                ⟨.kDel, [], [99], [], 4⟩).readSlot (0 + 1) = some ⟨.kDel, [], [99], [], 4⟩
          ∧ (((BinLoggerState.empty.appendEntry ⟨.kPut, [], [97], [120], 3⟩
                |>.appendEntry ⟨.kPut, [], [98], [121], 3⟩).truncate 0).appendEntry
                ⟨.kDel, [], [99], [], 4⟩).length = 0 + 2
          ∧ (∀ j : Int,
              ((BinLoggerState.empty.appendEntry ⟨.kPut, [], [97], [120], 3⟩
                  |>.appendEntry ⟨.kPut, [], [98], [121], 3⟩).truncate 0).readSlot j
                = (BinLoggerState.empty.appendEntry ⟨.kPut, [], [97], [120], 3⟩
                    |>.appendEntry ⟨.kPut, [], [98], [121], 3⟩).readSlot j)) :=
  ⟨by norm_num,
   truncate_amended
     (BinLoggerState.empty.appendEntry ⟨.kPut, [], [97], [120], 3⟩
       |>.appendEntry ⟨.kPut, [], [98], [121], 3⟩) 0 (by norm_num)
     ⟨.kDel, [], [99], [], 4⟩⟩

/-! ### Claim C5 — safe-mode gating of the request surface -/

/-- C5 counterexample: on a leader with `in_safe_mode` set (and an empty
login token), `Watch` is NOT rejected — its admission chain never consults
`in_safe_mode_`, and the handler registers the watch. -/
theorem watch_ignores_safe_mode :
    watchAdmission ⟨.kLeader, "", true, [], 0, 0, 0, 0, 10⟩ [] = .proceed
      ∧ watchHandler ⟨.kLeader, "", true, [], 0, 0, 0, 0, 10⟩ [] = true := by
  constructor <;> rfl

/-- C5 (amended): while a node is Leader with `in_safe_mode` set, `Get`,
`Lock` and `Scan` are rejected with `success=false` and empty `leader_id`,
and the write operations `Put`, `Delete` and `Unlock` still proceed to
append a log entry; `Watch`, however, is not safe-mode-gated — it is
rejected only for followers, candidates, or unknown login tokens, and
otherwise registers the watch even in safe mode. -/
theorem safe_mode_gating_amended (s : SurfaceState) (uuid : ByteStr)
    (hL : s.status = .kLeader) (hS : s.inSafeMode = true) (hu : uuid = [])
    (hp : ¬ s.clientAckSize > s.maxWritePending)
    (binlog : BinLoggerState) (e1 e2 e3 : LogEntry) :
    getAdmission s uuid = .reject "" false
      ∧ lockAdmission s uuid = .reject "" false
      ∧ scanAdmission s uuid = .reject "" false
      ∧ watchAdmission s uuid = .proceed
      ∧ watchHandler s uuid = true
      ∧ putHandler s uuid binlog e1 = (binlog.appendEntry e1, true)
      ∧ delHandler s uuid binlog e2 = (binlog.appendEntry e2, true)
      ∧ unlockHandler s uuid binlog e3 = (binlog.appendEntry e3, true) := by
  subst hu
  simp [getAdmission, lockAdmission, scanAdmission, watchAdmission, watchHandler,
    putHandler, delHandler, unlockHandler, putAdmission, delAdmission,
    unlockAdmission, hL, hS, hp]

/-- C5 witness: the amended statement at a concrete safe-mode leader
state. -/
theorem safe_mode_gating_amended_witness :
    ((⟨.kLeader, "L", true, [], 9, 0, 3, 0, 10⟩ : SurfaceState).status = .kLeader
        ∧ (⟨.kLeader, "L", true, [], 9, 0, 3, 0, 10⟩ : SurfaceState).inSafeMode = true)
      ∧ getAdmission ⟨.kLeader, "L", true, [], 9, 0, 3, 0, 10⟩ [] = .reject "" false
      ∧ lockAdmission ⟨.kLeader, "L", true, [], 9, 0, 3, 0, 10⟩ [] = .reject "" false
      ∧ scanAdmission ⟨.kLeader, "L", true, [], 9, 0, 3, 0, 10⟩ [] = .reject "" false
      ∧ watchAdmission ⟨.kLeader, "L", true, [], 9, 0, 3, 0, 10⟩ [] = .proceed
      ∧ putHandler ⟨.kLeader, "L", true, [], 9, 0, 3, 0, 10⟩ [] BinLoggerState.empty
          ⟨.kPut, [], [97], [120], 1⟩
          = (BinLoggerState.empty.appendEntry ⟨.kPut, [], [97], [120], 1⟩, true)
      ∧ delHandler ⟨.kLeader, "L", true, [], 9, 0, 3, 0, 10⟩ [] BinLoggerState.empty
          ⟨.kDel, [], [97], [], 1⟩
          = (BinLoggerState.empty.appendEntry ⟨.kDel, [], [97], [], 1⟩, true)
      ∧ unlockHandler ⟨.kLeader, "L", true, [], 9, 0, 3, 0, 10⟩ [] BinLoggerState.empty
          ⟨.kUnLock, [], [97], [115], 1⟩
          = (BinLoggerState.empty.appendEntry ⟨.kUnLock, [], [97], [115], 1⟩, true) := by
  have h := safe_mode_gating_amended ⟨.kLeader, "L", true, [], 9, 0, 3, 0, 10⟩ []
    rfl rfl rfl (by norm_num) BinLoggerState.empty
    ⟨.kPut, [], [97], [120], 1⟩ ⟨.kDel, [], [97], [], 1⟩ ⟨.kUnLock, [], [97], [115], 1⟩
  exact ⟨⟨rfl, rfl⟩, h.1, h.2.1, h.2.2.1, h.2.2.2.1, h.2.2.2.2.2.1,
    h.2.2.2.2.2.2.1, h.2.2.2.2.2.2.2⟩

/-! ### Claim C8 — parent-key notification on apply -/

/-- C8 counterexample: applying a `Put` entry for key `a/b` (bytes
`[97, 47, 98]`) writes nothing to the parent key `a` — the apply path
calls `TouchParentKey` only for `Lock` and (conditionally) `Unlock`
entries, not for `Put` or `Del`. -/
theorem put_apply_skips_parent_key :
    storeGet (applyEntryStore [] ⟨.kPut, [117], [97, 47, 98], [118], 1⟩)
      [117] [97] = none := rfl

theorem parentKey_length {k p : ByteStr} (h : parentKey k = some p) :
    p.length < k.length := by
  induction k generalizing p with
  | nil => simp [parentKey] at h
  | cons c rest ih =>
      rw [parentKey] at h
      rcases hr : parentKey rest with _ | q
      · rw [hr] at h
        split_ifs at h with hc
        · injection h with h1
          subst h1
          simp
      · rw [hr] at h
        injection h with h1
        subst h1
        simpa using ih hr

theorem parentKey_ne {k p : ByteStr} (h : parentKey k = some p) : p ≠ k := by
  intro he
  have := parentKey_length h
  rw [he] at this
  omega

theorem storeGet_cons (x : (ByteStr × ByteStr) × ByteStr) (l : KVStore)
    (u' k' : ByteStr) :
    storeGet (x :: l) u' k'
      = if x.1 = (u', k') then some x.2 else storeGet l u' k' := by
  by_cases hx : x.1 = (u', k') <;> simp [storeGet, List.find?, hx]

theorem storeDelete_cons (x : (ByteStr × ByteStr) × ByteStr) (l : KVStore)
    (u k : ByteStr) :
    storeDelete (x :: l) u k
      = if x.1 = (u, k) then storeDelete l u k else x :: storeDelete l u k := by
  by_cases hx : x.1 = (u, k) <;> simp [storeDelete, List.filter_cons, hx]

theorem storeGet_put_same (db : KVStore) (u k v : ByteStr) :
    storeGet (storePut db u k v) u k = some v := by
  simp [storeGet, storePut, List.find?]

theorem storeGet_put_other (db : KVStore) (u k v u' k' : ByteStr)
    (h : ¬ ((u, k) = (u', k'))) :
    storeGet (storePut db u k v) u' k' = storeGet db u' k' := by
  simp [storeGet, storePut, List.find?, h]

theorem storeGet_delete_other (db : KVStore) (u k u' k' : ByteStr)
    (h : ¬ ((u, k) = (u', k'))) :
    storeGet (storeDelete db u k) u' k' = storeGet db u' k' := by
  induction db with
  | nil => rfl
  | cons hd tl ih =>
      rw [storeDelete_cons, storeGet_cons]
      by_cases hhd : hd.1 = (u, k)
      · have hne : ¬ hd.1 = (u', k') := by rw [hhd]; exact h
        rw [if_pos hhd, if_neg hne]
        exact ih
      · rw [if_neg hhd, storeGet_cons]
        by_cases hq : hd.1 = (u', k')
        · rw [if_pos hq, if_pos hq]
        · rw [if_neg hq, if_neg hq]
          exact ih

/-- C8 (amended): when the application worker applies a `Lock` entry whose
key has a parent, it writes the synthetic Put-tagged value
`"lock,<session_id>"` to the parent key in the same user's namespace, and
when it applies an `Unlock` entry that actually releases the lock (the
stored value is Lock-tagged by the entry's session) it writes
`"unlock,<session_id>"` there; applying `Put` or `Del` entries leaves the
parent key untouched (those only enqueue parent watch triggers without
writing a parent marker). -/
theorem touch_parent_key_amended (db : KVStore) (e : LogEntry) (p : ByteStr)
    (hp : parentKey e.key = some p) :
    (e.op = .kLock →
        storeGet (applyEntryStore db e) e.user p
          = some (LogOperation.kPut.code :: (strBytes "lock" ++ [44] ++ e.value)))
      ∧ (e.op = .kUnLock →
          storeGet db e.user e.key = some (LogOperation.kLock.code :: e.value) →
          storeGet (applyEntryStore db e) e.user p
            = some (LogOperation.kPut.code :: (strBytes "unlock" ++ [44] ++ e.value)))
      ∧ (e.op = .kPut →
          storeGet (applyEntryStore db e) e.user p = storeGet db e.user p)
      ∧ (e.op = .kDel →
          storeGet (applyEntryStore db e) e.user p = storeGet db e.user p) := by
  have hne : ¬ ((e.user, e.key) = (e.user, p)) := by
    intro hcontra
    exact parentKey_ne hp (congrArg Prod.snd hcontra).symm
  refine ⟨?_, ?_, ?_, ?_⟩
  · intro hop
    simp only [applyEntryStore, hop, touchParentKey, hp]
    exact storeGet_put_same _ _ _ _
  · intro hop hstored
    simp only [applyEntryStore, hop]
    rw [hstored]
    simp only [parseValue, LogOperation.ofCode_code]
    rw [if_pos ⟨trivial, trivial⟩]
    simp only [touchParentKey, hp]
    exact storeGet_put_same _ _ _ _
  · intro hop
    simp only [applyEntryStore, hop]
    exact storeGet_put_other _ _ _ _ _ _ hne
  · intro hop
    simp only [applyEntryStore, hop]
    exact storeGet_delete_other _ _ _ _ _ hne

/-- C8 witness: the amended statement at the concrete keys `a/b` (parent
`a`), with a held lock for the Unlock leg. -/
theorem touch_parent_key_amended_witness :
    parentKey ([97, 47, 98] : ByteStr) = some [97]
      ∧ storeGet
          (applyEntryStore [] ⟨.kLock, [117], [97, 47, 98], [115], 1⟩)
          [117] [97]
          = some (LogOperation.kPut.code :: (strBytes "lock" ++ [44] ++ [115]))
      ∧ storeGet
          (applyEntryStore [(([117], [97, 47, 98]), LogOperation.kLock.code :: [115])]
            ⟨.kUnLock, [117], [97, 47, 98], [115], 1⟩)
          [117] [97]
          = some (LogOperation.kPut.code :: (strBytes "unlock" ++ [44] ++ [115])) := by
  refine ⟨rfl, ?_, ?_⟩
  · exact (touch_parent_key_amended [] ⟨.kLock, [117], [97, 47, 98], [115], 1⟩
      [97] rfl).1 rfl
  · exact (touch_parent_key_amended
      [(([117], [97, 47, 98]), LogOperation.kLock.code :: [115])]
      ⟨.kUnLock, [117], [97, 47, 98], [115], 1⟩ [97] rfl).2.1 rfl rfl

/-! ### Claim C6 — lock availability -/

/-- C6 counterexample: the stored value is Lock-tagged and owned by the
caller's own session, but that session has expired (it is absent from the
session table) — the claim's condition (c) holds, yet `LockIsAvailable`
returns `false`: the code grants re-entry only while the owning session is
still live. -/
theorem lock_reentry_requires_live_session :
    lockIsAvailable [] (some (LogOperation.kLock.code :: [83])) [83] = false
      ∧ specLockAvail [] (some (LogOperation.kLock.code :: [83])) [83] :=
  ⟨rfl, ⟨rfl, Or.inr rfl⟩⟩

/-- C6 (amended): `LockIsAvailable` grants iff either (a) the key is unset
and the caller's session exists, or (b) the stored value is Lock-tagged
with an owner absent from the session table while the caller's session
exists, or (c) the stored value is Lock-tagged, owned by the caller's own
session, and that session still exists (re-entry requires the owning
session to be live).  Consequently `Lock(k,S)` re-entry by a live `S`
succeeds and `Lock(k,S')` by a different live session on a lock held by a
live session fails. -/
theorem lockIsAvailable_amended (sessions : List ByteStr)
    (storeVal : Option ByteStr) (sid : ByteStr) :
    (lockIsAvailable sessions storeVal sid = true ↔
        (match storeVal with
         | none => sid ∈ sessions
         | some v =>
             (parseValue v).1 = .kLock
               ∧ (((parseValue v).2 ∉ sessions ∧ sid ∈ sessions)
                   ∨ ((parseValue v).2 = sid ∧ (parseValue v).2 ∈ sessions))))
      ∧ (∀ s : ByteStr, s ∈ sessions →
          lockIsAvailable sessions (some (LogOperation.kLock.code :: s)) s = true)
      ∧ (∀ s s' : ByteStr, s ∈ sessions → s' ∈ sessions → s ≠ s' →
          lockIsAvailable sessions (some (LogOperation.kLock.code :: s)) s' = false) := by
  refine ⟨?_, ?_, ?_⟩
  · cases storeVal with
    | none => simp [lockIsAvailable]
    | some v =>
        by_cases hL : (parseValue v).1 = .kLock
        · by_cases ho : (parseValue v).2 ∈ sessions
          · by_cases hs : (parseValue v).2 = sid
            · simp [lockIsAvailable, hL, ho, hs]
            · by_cases hsid : sid ∈ sessions <;>
                simp [lockIsAvailable, hL, ho, hs, hsid]
          · by_cases hsid : sid ∈ sessions <;>
              simp [lockIsAvailable, hL, ho, hsid]
        · simp [lockIsAvailable, hL]
  · intro s hs
    simp [lockIsAvailable, parseValue, LogOperation.ofCode_code, hs]
  · intro s s' hs hs' hne
    simp [lockIsAvailable, parseValue, LogOperation.ofCode_code, hs, hs', hne,
      Ne.symm hne]

/-- C6 witness: a live session's re-entry succeeds and a different live
session's attempt on a live-held lock fails, at concrete sessions. -/
theorem lockIsAvailable_amended_witness :
    ([83] : ByteStr) ∈ ([[83], [84]] : List ByteStr)
      ∧ lockIsAvailable [[83], [84]] (some (LogOperation.kLock.code :: [83])) [83] = true
      ∧ lockIsAvailable [[83], [84]] (some (LogOperation.kLock.code :: [83])) [84] = false := by
  have h := lockIsAvailable_amended [[83], [84]]
    (some (LogOperation.kLock.code :: [83])) [83]
  exact ⟨by decide, h.2.1 [83] (by decide),
    h.2.2 [83] [84] (by decide) (by decide) (by decide)⟩

/-! ### Claim C7 — `Scan` -/

/-- C7 counterexample: with `size_limit = 1` and four matching entries the
scan loop returns TWO items — the guard `count > size_limit` lets
`size_limit + 1` items through, so "at most size_limit items" fails. -/
theorem scan_exceeds_size_limit :
    ¬ ((scanEntries [] [] 1
          [([97], [1, 120]), ([98], [1, 120]), ([99], [1, 120]),
           ([100], [1, 120])]).items.length ≤ 1)
      ∧ (scanEntries [] [] 1
          [([97], [1, 120]), ([98], [1, 120]), ([99], [1, 120]),
           ([100], [1, 120])]).items.length = 2 := by
  constructor <;> decide

theorem scanLoop_items_spec (sessions : List ByteStr) (endKey : ByteStr)
    (sizeLimit : Int) :
    ∀ (entries : List (ByteStr × ByteStr)) (acc : ScanAcc),
      ∀ it ∈ (scanLoop sessions endKey sizeLimit entries acc).items,
        it ∈ acc.items
          ∨ ∃ v, (it.1, v) ∈ entries ∧ it.2 = (parseValue v).2
              ∧ (endKey = [] ∨ bytesLt it.1 endKey = true)
              ∧ it.1 ≠ tagLastAppliedIndex
              ∧ ¬ ((parseValue v).1 = .kLock
                    ∧ isExpiredSession sessions (parseValue v).2 = true) := by
  intro entries
  induction entries with
  | nil => intro acc it hit; exact Or.inl hit
  | cons hd rest ih =>
      intro acc it hit
      obtain ⟨k, v⟩ := hd
      rw [scanLoop] at hit
      by_cases hrange : ¬ (bytesLt k endKey ∨ endKey = [])
      · rw [if_pos hrange] at hit
        exact Or.inl hit
      · rw [if_neg hrange] at hit
        by_cases hcnt : acc.count > sizeLimit
        · rw [if_pos hcnt] at hit
          exact Or.inl hit
        · rw [if_neg hcnt] at hit
          by_cases hpb : acc.pbSize > sMaxPBSize
          · rw [if_pos hpb] at hit
            exact Or.inl hit
          · rw [if_neg hpb] at hit
            by_cases htag : k = tagLastAppliedIndex
            · rw [if_pos htag] at hit
              rcases ih acc it hit with h | ⟨w, hw, rest'⟩
              · exact Or.inl h
              · exact Or.inr ⟨w, List.mem_cons_of_mem _ hw, rest'⟩
            · rw [if_neg htag] at hit
              by_cases hexp : (parseValue v).1 = .kLock
                  ∧ isExpiredSession sessions (parseValue v).2 = true
              · rw [if_pos (by simpa using hexp)] at hit
                rcases ih acc it hit with h | ⟨w, hw, rest'⟩
                · exact Or.inl h
                · exact Or.inr ⟨w, List.mem_cons_of_mem _ hw, rest'⟩
              · rw [if_neg (by simpa using hexp)] at hit
                rcases ih _ it hit with h | ⟨w, hw, rest'⟩
                · rcases List.mem_append.1 h with h' | h'
                  · exact Or.inl h'
                  · have heq : it = (k, (parseValue v).2) := by simpa using h'
                    subst heq
                    refine Or.inr ⟨v, List.mem_cons_self _ _, rfl, ?_, htag, hexp⟩
                    by_cases hek : endKey = []
                    · exact Or.inl hek
                    · refine Or.inr ?_
                      rcases not_not.1 hrange with h'' | h''
                      · exact h''
                      · exact absurd h'' hek
                · exact Or.inr ⟨w, List.mem_cons_of_mem _ hw, rest'⟩

theorem scanLoop_count_le (sessions : List ByteStr) (endKey : ByteStr)
    (sizeLimit : Int) :
    ∀ (entries : List (ByteStr × ByteStr)) (acc : ScanAcc),
      (scanLoop sessions endKey sizeLimit entries acc).count
        ≤ max (sizeLimit + 1) acc.count := by
  intro entries
  induction entries with
  | nil =>
      intro acc
      rw [scanLoop]
      exact le_max_right _ _
  | cons hd rest ih =>
      intro acc
      obtain ⟨k, v⟩ := hd
      rw [scanLoop]
      by_cases hrange : ¬ (bytesLt k endKey ∨ endKey = [])
      · rw [if_pos hrange]; exact le_max_right _ _
      · rw [if_neg hrange]
        by_cases hcnt : acc.count > sizeLimit
        · rw [if_pos hcnt]; exact le_max_right _ _
        · rw [if_neg hcnt]
          by_cases hpb : acc.pbSize > sMaxPBSize
          · rw [if_pos hpb]; exact le_max_right _ _
          · rw [if_neg hpb]
            by_cases htag : k = tagLastAppliedIndex
            · rw [if_pos htag]; exact ih acc
            · rw [if_neg htag]
              by_cases hexp : (parseValue v).1 = .kLock
                  ∧ isExpiredSession sessions (parseValue v).2 = true
              · rw [if_pos (by simpa using hexp)]; exact ih acc
              · rw [if_neg (by simpa using hexp)]
                have h := ih ⟨acc.items ++ [(k, (parseValue v).2)], acc.count + 1,
                  acc.pbSize + k.length + (parseValue v).2.length, acc.hasMore⟩
                simp only at h
                omega

theorem scanLoop_count_items (sessions : List ByteStr) (endKey : ByteStr)
    (sizeLimit : Int) :
    ∀ (entries : List (ByteStr × ByteStr)) (acc : ScanAcc),
      (scanLoop sessions endKey sizeLimit entries acc).count
          - ((scanLoop sessions endKey sizeLimit entries acc).items.length : Int)
        = acc.count - acc.items.length := by
  intro entries
  induction entries with
  | nil => intro acc; rw [scanLoop]
  | cons hd rest ih =>
      intro acc
      obtain ⟨k, v⟩ := hd
      rw [scanLoop]
      by_cases hrange : ¬ (bytesLt k endKey ∨ endKey = [])
      · rw [if_pos hrange]
      · rw [if_neg hrange]
        by_cases hcnt : acc.count > sizeLimit
        · rw [if_pos hcnt]
        · rw [if_neg hcnt]
          by_cases hpb : acc.pbSize > sMaxPBSize
          · rw [if_pos hpb]
          · rw [if_neg hpb]
            by_cases htag : k = tagLastAppliedIndex
            · rw [if_pos htag]; exact ih acc
            · rw [if_neg htag]
              by_cases hexp : (parseValue v).1 = .kLock
                  ∧ isExpiredSession sessions (parseValue v).2 = true
              · rw [if_pos (by simpa using hexp)]; exact ih acc
              · rw [if_neg (by simpa using hexp)]
                have h := ih ⟨acc.items ++ [(k, (parseValue v).2)], acc.count + 1,
                  acc.pbSize + k.length + (parseValue v).2.length, acc.hasMore⟩
                simp only [List.length_append, List.length_cons, List.length_nil] at h
                rw [h]
                push_cast
                ring

theorem scanLoop_hasMore (sessions : List ByteStr) (endKey : ByteStr)
    (sizeLimit : Int) :
    ∀ (entries : List (ByteStr × ByteStr)) (acc : ScanAcc),
      acc.hasMore = false →
      (scanLoop sessions endKey sizeLimit entries acc).hasMore = true →
      ((scanLoop sessions endKey sizeLimit entries acc).count > sizeLimit
        ∨ (scanLoop sessions endKey sizeLimit entries acc).pbSize > sMaxPBSize) := by
  intro entries
  induction entries with
  | nil =>
      intro acc hacc hres
      rw [scanLoop] at hres
      rw [hacc] at hres
      cases hres
  | cons hd rest ih =>
      intro acc hacc hres
      obtain ⟨k, v⟩ := hd
      rw [scanLoop] at hres ⊢
      by_cases hrange : ¬ (bytesLt k endKey ∨ endKey = [])
      · rw [if_pos hrange] at hres ⊢
        rw [hacc] at hres
        cases hres
      · rw [if_neg hrange] at hres ⊢
        by_cases hcnt : acc.count > sizeLimit
        · rw [if_pos hcnt]
          exact Or.inl hcnt
        · rw [if_neg hcnt] at hres ⊢
          by_cases hpb : acc.pbSize > sMaxPBSize
          · rw [if_pos hpb]
            exact Or.inr hpb
          · rw [if_neg hpb] at hres ⊢
            by_cases htag : k = tagLastAppliedIndex
            · rw [if_pos htag] at hres ⊢
              exact ih acc hacc hres
            · rw [if_neg htag] at hres ⊢
              by_cases hexp : (parseValue v).1 = .kLock
                  ∧ isExpiredSession sessions (parseValue v).2 = true
              · rw [if_pos (by simpa using hexp)] at hres ⊢
                exact ih acc hacc hres
              · rw [if_neg (by simpa using hexp)] at hres ⊢
                exact ih _ (by simpa using hacc) hres

/-- C7 (amended): `Scan` on a non-safe-mode leader returns at most
`size_limit + 1` items (the `count > size_limit` guard is an off-by-one);
every returned item comes from a store entry with key ≥ `start_key`
(the iterator starts at `Seek(start_key)`), key < `end_key` unless
`end_key` is empty, key distinct from `#TAG_LAST_APPLIED_INDEX#`, and a
value that is not an expired Lock; and `has_more=true` only arises once
the item count already exceeds `size_limit` or the cumulative size already
exceeds the 26 MiB cap. -/
theorem scan_amended (sessions : List ByteStr) (startKey endKey : ByteStr)
    (sizeLimit : Int) (entries : List (ByteStr × ByteStr))
    (hstart : ∀ pv ∈ entries, bytesLt pv.1 startKey = false) :
    (((scanEntries sessions endKey sizeLimit entries).items.length : Int)
        ≤ max (sizeLimit + 1) 0)
      ∧ (∀ it ∈ (scanEntries sessions endKey sizeLimit entries).items,
          bytesLt it.1 startKey = false
            ∧ (endKey = [] ∨ bytesLt it.1 endKey = true)
            ∧ it.1 ≠ tagLastAppliedIndex
            ∧ ∃ v, (it.1, v) ∈ entries ∧ it.2 = (parseValue v).2
                ∧ ¬ ((parseValue v).1 = .kLock
                      ∧ isExpiredSession sessions (parseValue v).2 = true))
      ∧ ((scanEntries sessions endKey sizeLimit entries).hasMore = true →
          (scanEntries sessions endKey sizeLimit entries).count > sizeLimit
            ∨ (scanEntries sessions endKey sizeLimit entries).pbSize > sMaxPBSize) := by
  refine ⟨?_, ?_, ?_⟩
  · have hc := scanLoop_count_le sessions endKey sizeLimit entries ⟨[], 0, 0, false⟩
    have hi := scanLoop_count_items sessions endKey sizeLimit entries ⟨[], 0, 0, false⟩
    simp only [List.length_nil, Nat.cast_zero, sub_zero] at hi hc
    rw [scanEntries]
    omega
  · intro it hit
    rcases scanLoop_items_spec sessions endKey sizeLimit entries
        ⟨[], 0, 0, false⟩ it hit with h | ⟨v, hv, h2, h3, h4, h5⟩
    · cases h
    · exact ⟨hstart (it.1, v) hv, h3, h4, v, hv, h2, h5⟩
  · exact scanLoop_hasMore sessions endKey sizeLimit entries ⟨[], 0, 0, false⟩ rfl

/-- C7 witness: the amended statement at the concrete four-entry scan with
`size_limit = 1`. -/
theorem scan_amended_witness :
    (∀ pv ∈ ([([97], [1, 120]), ([98], [1, 120]), ([99], [1, 120]),
        ([100], [1, 120])] : List (ByteStr × ByteStr)), bytesLt pv.1 [] = false)
      ∧ (((scanEntries [] [] 1
            [([97], [1, 120]), ([98], [1, 120]), ([99], [1, 120]),
             ([100], [1, 120])]).items.length : Int) ≤ max (1 + 1) 0) := by
  refine ⟨by decide, ?_⟩
  exact (scan_amended [] [] [] 1
    [([97], [1, 120]), ([98], [1, 120]), ([99], [1, 120]), ([100], [1, 120])]
    (by decide)).1

/-! ### Claim C3 — `Vote` -/
/-- C3 counterexample: the request's term (3) is strictly above the node's
current term (1), but the candidate's log is behind, and the handler
rejects WITHOUT stepping down — the node keeps term 1 (the log
up-to-dateness check runs before `TransToFollower`, so a higher term is
not adopted when the candidate's log is stale, contradicting "whenever
request.term > current_term the node first steps down ... and only then
evaluates the grant conditions"). -/
theorem vote_rejects_without_stepdown :
    ((3 : Int) > (1 : Int))
      ∧ (vote ⟨1, .kFollower, [], -1, -1, "", 0, ⟨[], 1, 5⟩⟩
          ⟨3, "B", 10, 2⟩).1.currentTerm = 1
      ∧ (vote ⟨1, .kFollower, [], -1, -1, "", 0, ⟨[], 1, 5⟩⟩
          ⟨3, "B", 10, 2⟩).1.currentTerm ≠ 3
      ∧ (vote ⟨1, .kFollower, [], -1, -1, "", 0, ⟨[], 1, 5⟩⟩
          ⟨3, "B", 10, 2⟩).2.voteGranted = false := by
  refine ⟨by norm_num, rfl, by decide, rfl⟩

theorem voteTally_spec (st : NodeState) (req : VoteRequest) :
    ((voteTally st req).2.voteGranted = true ↔
        (votedForLookup st.votedFor st.currentTerm = none
          ∨ votedForLookup st.votedFor st.currentTerm = some req.candidateId))
      ∧ (voteTally st req).1.currentTerm = st.currentTerm
      ∧ (voteTally st req).2.term = st.currentTerm := by
  unfold voteTally
  split
  · next c heq =>
      by_cases hc : c = req.candidateId
      · rw [if_neg (not_not_intro hc)]
        exact ⟨⟨fun _ => Or.inr (by rw [heq, hc]), fun _ => rfl⟩, rfl, rfl⟩
      · rw [if_pos hc]
        refine ⟨⟨fun hfalse => absurd hfalse (by simp), ?_⟩, rfl, rfl⟩
        rintro (hn | hs)
        · rw [heq] at hn
          cases hn
        · rw [heq] at hs
          injection hs with hs
          exact absurd hs hc
  · next heq =>
      exact ⟨⟨fun _ => Or.inl heq, fun _ => rfl⟩, rfl, rfl⟩

/-- C3 (amended): the vote is granted exactly under the claim's condition
— `request.term ≥ current_term`, candidate log at least as up to date, and
no conflicting vote at the (possibly adopted) current term — but the node
steps down and adopts a strictly higher request term only AFTER the log
up-to-dateness check passes: when `request.term > current_term` and the
candidate's log is behind, the node rejects while keeping its old term.
The response always reports the node's (possibly adopted) current term. -/
theorem vote_amended (st : NodeState) (req : VoteRequest) :
    ((vote st req).2.voteGranted = true ↔ specVoteGrant st req)
      ∧ ((vote st req).1.currentTerm
          = if req.term > st.currentTerm ∧ logUpToDate st req then req.term
            else st.currentTerm)
      ∧ (vote st req).2.term = (vote st req).1.currentTerm := by
  unfold vote
  by_cases h1 : req.term < st.currentTerm
  · rw [if_pos h1]
    refine ⟨⟨fun hfalse => absurd hfalse (by simp), ?_⟩, ?_, rfl⟩
    · rintro ⟨hge, -, -⟩
      exact absurd h1 (by omega)
    · rw [if_neg (fun hcon => absurd hcon.1 (by omega))]
  · rw [if_neg h1]
    by_cases h2 : req.lastLogTerm < st.binlog.lastLogTerm
    · rw [if_pos h2]
      have hnup : ¬ logUpToDate st req := by
        rw [logUpToDate]
        rintro (hgt | ⟨heq, -⟩) <;> omega
      refine ⟨⟨fun hfalse => absurd hfalse (by simp), ?_⟩, ?_, rfl⟩
      · rintro ⟨-, hup, -⟩
        exact absurd hup hnup
      · rw [if_neg (fun hcon => absurd hcon.2 hnup)]
    · rw [if_neg h2]
      by_cases h3 : req.lastLogTerm = st.binlog.lastLogTerm
          ∧ req.lastLogIndex < st.binlog.lastLogIndex
      · rw [if_pos h3]
        have hnup : ¬ logUpToDate st req := by
          rw [logUpToDate]
          rintro (hgt | ⟨heq, hge⟩)
          · omega
          · omega
        refine ⟨⟨fun hfalse => absurd hfalse (by simp), ?_⟩, ?_, rfl⟩
        · rintro ⟨-, hup, -⟩
          exact absurd hup hnup
        · rw [if_neg (fun hcon => absurd hcon.2 hnup)]
      · rw [if_neg h3]
        have hup : logUpToDate st req := by
          rw [logUpToDate]
          rcases lt_trichotomy req.lastLogTerm st.binlog.lastLogTerm with h | h | h
          · exact absurd h h2
          · refine Or.inr ⟨h, ?_⟩
            by_contra hlt
            exact h3 ⟨h, by omega⟩
          · exact Or.inl h
        by_cases h4 : req.term > st.currentTerm
        · rw [if_pos h4]
          have ht := voteTally_spec (transToFollower st req.term) req
          have htt : (transToFollower st req.term).currentTerm = req.term := rfl
          have htv : (transToFollower st req.term).votedFor = st.votedFor := rfl
          rw [htt, htv] at ht
          have hmax : max st.currentTerm req.term = req.term := by omega
          refine ⟨?_, ?_, ?_⟩
          · rw [ht.1]
            unfold specVoteGrant
            rw [hmax]
            constructor
            · intro h
              exact ⟨by omega, hup, h⟩
            · rintro ⟨-, -, h⟩
              exact h
          · rw [ht.2.1, if_pos ⟨h4, hup⟩]
          · rw [ht.2.2, ht.2.1]
        · rw [if_neg h4]
          have ht := voteTally_spec st req
          have hmax : max st.currentTerm req.term = st.currentTerm := by omega
          refine ⟨?_, ?_, ?_⟩
          · rw [ht.1]
            unfold specVoteGrant
            rw [hmax]
            constructor
            · intro h
              exact ⟨by omega, hup, h⟩
            · rintro ⟨-, -, h⟩
              exact h
          · rw [ht.2.1, if_neg (fun hcon => h4 hcon.1)]
          · rw [ht.2.2, ht.2.1]

/-! ### Claim C1 — commit_index / last_applied monotonicity -/

/-- C1 counterexample: a follower at commit_index 5 (last log index 10)
receives a pure heartbeat whose `leader_commit_index` is 3; the handler
assigns `commit_index = min(10, 3) = 3 < 5` — the follower AppendEntries
handler can DECREASE commit_index. -/
theorem follower_commit_index_decreases :
    (doAppendEntries 10 ⟨5, .kFollower, [], 5, 5, "", 0, ⟨[], 11, 5⟩⟩
        ⟨5, "L", -1, -1, 3, []⟩).map (fun r => r.1.commitIndex) = some 3
      ∧ ((3 : Int) < 5) := by
  constructor
  · rfl
  · norm_num

theorem doAppendEntriesBody_spec (p : Int) (st : NodeState)
    (req : AppendEntriesRequest) (res : NodeState × AppendEntriesResponse)
    (h : doAppendEntriesBody p st req = some res) :
    res.1.lastApplied = st.lastApplied
      ∧ (res.2.success = true →
          res.1.commitIndex = min res.1.binlog.lastLogIndex req.leaderCommitIndex)
      ∧ (res.2.success = false → res.1.commitIndex = st.commitIndex) := by
  unfold doAppendEntriesBody at h
  by_cases he : req.entries.length > 0
  · rw [if_pos he] at h
    by_cases hp : req.prevLogIndex ≥ st.binlog.length
    · rw [if_pos hp] at h
      injection h with h
      subst h
      exact ⟨rfl, fun ht => Bool.noConfusion ht, fun _ => rfl⟩
    · rw [if_neg hp] at h
      split at h
      · cases h
      · rename_i prevTerm heq
        by_cases hterm : prevTerm ≠ req.prevLogTerm
        · rw [if_pos hterm] at h
          injection h with h
          subst h
          exact ⟨rfl, fun ht => Bool.noConfusion ht, fun _ => rfl⟩
        · rw [if_neg hterm] at h
          by_cases hbusy : st.commitIndex - st.lastApplied > p
          · rw [if_pos hbusy] at h
            injection h with h
            subst h
            exact ⟨rfl, fun ht => Bool.noConfusion ht, fun _ => rfl⟩
          · rw [if_neg hbusy] at h
            injection h with h
            subst h
            exact ⟨rfl, fun _ => rfl, fun hf => Bool.noConfusion hf⟩
  · rw [if_neg he] at h
    injection h with h
    subst h
    exact ⟨rfl, fun _ => rfl, fun hf => Bool.noConfusion hf⟩

/-- C1 (amended): on the leader, `UpdateCommitIndex` never decreases
commit_index (it advances only when `a_index > commit_index`), and the
follower AppendEntries handler never changes last_applied and leaves
commit_index unchanged on every rejection path; but on its success paths
(heartbeat or accepted entries) it assigns `commit_index = min(last log
index, request.leader_commit_index)`, which is SMALLER than the previous
commit_index whenever the request's leader_commit_index (or the truncated
log tail) falls below it — commit_index is not monotone at a follower,
only the leader-side advancement and last_applied are. -/
theorem commit_monotonicity_amended :
    (∀ (members : List String) (mi : List (String × Int)) (c idx : Int),
        c ≤ (updateCommitIndex members mi c idx).1)
      ∧ (∀ (p : Int) (st : NodeState) (req : AppendEntriesRequest)
            (res : NodeState × AppendEntriesResponse),
          doAppendEntries p st req = some res →
            res.1.lastApplied = st.lastApplied
              ∧ (res.2.success = true →
                  res.1.commitIndex
                    = min res.1.binlog.lastLogIndex req.leaderCommitIndex)
              ∧ (res.2.success = false → res.1.commitIndex = st.commitIndex)) := by
  constructor
  · intro members mi c idx
    unfold updateCommitIndex
    split_ifs with h
    · exact le_of_lt h.2
    · exact le_refl c
  · intro p st req res h
    unfold doAppendEntries at h
    by_cases h1 : req.term < st.currentTerm
    · rw [if_pos h1] at h
      injection h with h
      subst h
      exact ⟨rfl, fun ht => Bool.noConfusion ht, fun _ => rfl⟩
    · rw [if_neg h1] at h
      exact doAppendEntriesBody_spec p
        { st with status := .kFollower,
                  currentTerm := if st.currentTerm < req.term then req.term
                    else st.currentTerm,
                  currentLeader := req.leaderId,
                  heartbeatCount := st.heartbeatCount + 1 } req res h

/-- C1 witness: the amended statement at the concrete heartbeat of the
counterexample (leader-side monotonicity at a concrete map, and the
follower handler's success-path assignment). -/
theorem commit_monotonicity_amended_witness :
    ((5 : Int) ≤ (updateCommitIndex ["A", "B", "C"] [("B", 7), ("C", -1)] 5 7).1)
      ∧ doAppendEntries 10 ⟨5, .kFollower, [], 5, 5, "", 0, ⟨[], 11, 5⟩⟩
          ⟨5, "L", -1, -1, 3, []⟩
          = some (⟨5, .kFollower, [], 3, 5, "L", 1, ⟨[], 11, 5⟩⟩, ⟨5, true, 11, false⟩)
      ∧ ((⟨5, .kFollower, [], 3, 5, "L", 1, ⟨[], 11, 5⟩⟩ : NodeState),
          (⟨5, true, 11, false⟩ : AppendEntriesResponse)).1.lastApplied = 5 := by
  refine ⟨commit_monotonicity_amended.1 ["A", "B", "C"] [("B", 7), ("C", -1)] 5 7,
    by decide, ?_⟩
  exact (commit_monotonicity_amended.2 10
    ⟨5, .kFollower, [], 5, 5, "", 0, ⟨[], 11, 5⟩⟩ ⟨5, "L", -1, -1, 3, []⟩
    (⟨5, .kFollower, [], 3, 5, "L", 1, ⟨[], 11, 5⟩⟩, ⟨5, true, 11, false⟩)
    (by decide)).1

/-! ### Claim C2 — `UpdateCommitIndex` -/

/-- C2 counterexample: on a three-member cluster where no follower has
acknowledged slot 0, `UpdateCommitIndex(0)` nevertheless advances
commit_index and signals (the leader's own absent `match_index_` entry is
default-created as 0, and the threshold is the non-strict
`match_count >= size/2`), even though the claim's condition — a strict
majority counting the leader, AND the entry's term (1) equal to the
current term (2) — is false. -/
theorem updateCommitIndex_not_claim_cond :
    updateCommitIndex ["A", "B", "C"] [("B", -1), ("C", -1)] (-1) 0 = (0, true)
      ∧ ¬ specUpdateCommitCond ["A", "B", "C"] [("B", -1), ("C", -1)] (-1) 0 "A" 2
          (some 1) := by
  constructor
  · decide
  · decide

theorem countP_congr_mem {p q : String → Bool} :
    ∀ l : List String, (∀ a ∈ l, p a = q a) → l.countP p = l.countP q := by
  intro l
  induction l with
  | nil => intro; rfl
  | cons a l ih =>
      intro h
      rw [List.countP_cons, List.countP_cons, h a (List.mem_cons_self a l),
        ih (fun x hx => h x (List.mem_cons_of_mem a hx))]

theorem countP_or_self (P : String → Bool) (a : String) :
    ∀ l : List String, l.Nodup → a ∈ l →
      l.countP (fun s => decide (s = a) || P s)
        = l.countP P + (if P a then 0 else 1) := by
  intro l
  induction l with
  | nil => intro _ h; cases h
  | cons m ms ih =>
      intro hnd hmem
      have hm : m ∉ ms := (List.nodup_cons.1 hnd).1
      have hnd' : ms.Nodup := (List.nodup_cons.1 hnd).2
      rcases List.mem_cons.1 hmem with heq | hin
      · subst heq
        have hcong : ∀ x ∈ ms, (fun s => decide (s = a) || P s) x = P x := by
          intro x hx
          have : decide (x = a) = false := decide_eq_false (fun he => hm (he ▸ hx))
          simp [this]
        rw [List.countP_cons, List.countP_cons, countP_congr_mem ms hcong]
        simp only [decide_eq_true_eq]
        by_cases hP : P a <;> simp [hP]
      · have hma : ¬ (m = a) := fun he => hm (he ▸ hin)
        rw [List.countP_cons, List.countP_cons, ih hnd' hin]
        have : decide (m = a) = false := decide_eq_false hma
        simp only [this, Bool.false_or]
        omega

theorem countP_split (p : String → Bool) :
    ∀ l : List String, l.countP p + l.countP (fun a => !(p a)) = l.length := by
  intro l
  induction l with
  | nil => rfl
  | cons a l ih =>
      rw [List.countP_cons, List.countP_cons, List.length_cons]
      by_cases h : p a <;> simp [h] <;> omega

theorem find?_isSome_cons (q : String × Int) (rest : List (String × Int)) (x : String) :
    (((q :: rest).find? (fun r => r.1 = x)).isSome : Bool)
      = (decide (q.1 = x) || (rest.find? (fun r => r.1 = x)).isSome) := by
  by_cases h : q.1 = x <;> simp [List.find?, h]

theorem find?_isSome_append_key (m x : String) (v : Int) :
    ∀ mi : List (String × Int),
      (((mi ++ [(m, v)]).find? (fun q => q.1 = x)).isSome : Bool)
        = ((mi.find? (fun q => q.1 = x)).isSome || decide (m = x)) := by
  intro mi
  induction mi with
  | nil => by_cases h : m = x <;> simp [List.find?, h]
  | cons q rest ih =>
      rw [List.cons_append, find?_isSome_cons, find?_isSome_cons, ih]
      by_cases h : q.1 = x <;> simp [h]

theorem lookupMatch_append_zero (m x : String) :
    ∀ mi : List (String × Int), lookupMatch (mi ++ [(m, 0)]) x = lookupMatch mi x := by
  intro mi
  induction mi with
  | nil =>
      by_cases h : m = x <;> simp [lookupMatch, List.find?, h]
  | cons q rest ih =>
      by_cases h : q.1 = x
      · simp [lookupMatch, List.find?, h]
      · simpa [lookupMatch, List.find?, h] using ih

theorem insertDefaults_cons (mi : List (String × Int)) (m : String)
    (ms : List String) :
    insertDefaults mi (m :: ms)
      = insertDefaults
          (if (mi.find? (fun q => q.1 = m)).isSome then mi else mi ++ [(m, 0)]) ms := rfl

theorem lookupMatch_insertDefaults (x : String) :
    ∀ (members : List String) (mi : List (String × Int)),
      lookupMatch (insertDefaults mi members) x = lookupMatch mi x := by
  intro members
  induction members with
  | nil => intro mi; rfl
  | cons m ms ih =>
      intro mi
      rw [insertDefaults_cons]
      by_cases hc : (mi.find? (fun q => q.1 = m)).isSome
      · rw [if_pos hc, ih]
      · rw [if_neg hc, ih, lookupMatch_append_zero]

theorem countP_keys (members : List String) :
    ∀ mi : List (String × Int),
      members.Nodup → (mi.map Prod.fst).Nodup → (∀ q ∈ mi, q.1 ∈ members) →
      members.countP (fun m => ((mi.find? (fun q => q.1 = m)).isSome : Bool))
        = mi.length := by
  intro mi
  induction mi with
  | nil =>
      intro _ _ _
      have : ∀ a ∈ members,
          ((([] : List (String × Int)).find? (fun q => q.1 = a)).isSome : Bool)
            = (fun _ => false) a := by
        intro a _
        rfl
      rw [countP_congr_mem members this]
      simp [List.countP_eq_zero]
  | cons q rest ih =>
      intro hnd hkeysnd hkeys
      have hq1 : q.1 ∉ rest.map Prod.fst := (List.nodup_cons.1 hkeysnd).1
      have hrestnd : (rest.map Prod.fst).Nodup := (List.nodup_cons.1 hkeysnd).2
      have hcong : ∀ a ∈ members,
          (((q :: rest).find? (fun r => r.1 = a)).isSome : Bool)
            = (fun s => decide (s = q.1)
                || ((rest.find? (fun r => r.1 = s)).isSome : Bool)) a := by
        intro a _
        rw [find?_isSome_cons]
        by_cases h : q.1 = a
        · simp [h]
        · have : ¬ (a = q.1) := fun he => h he.symm
          simp [h, this]
      rw [countP_congr_mem members hcong,
        countP_or_self _ _ members hnd (hkeys q (List.mem_cons_self q rest))]
      have hPq : ((rest.find? (fun r => r.1 = q.1)).isSome : Bool) = false := by
        rw [List.find?_eq_none.2]
        · rfl
        · intro r hr
          simp only [decide_eq_true_eq]
          exact fun he => hq1 (he ▸ List.mem_map_of_mem Prod.fst hr)
      rw [ih hnd hrestnd (fun r hr => hkeys r (List.mem_cons_of_mem q hr))]
      simp [hPq]

theorem insertDefaults_length :
    ∀ (members : List String) (mi : List (String × Int)), members.Nodup →
      (insertDefaults mi members).length
        = mi.length
            + members.countP (fun m => !((mi.find? (fun q => q.1 = m)).isSome)) := by
  intro members
  induction members with
  | nil => intro mi _; rfl
  | cons m ms ih =>
      intro mi hnd
      have hm : m ∉ ms := (List.nodup_cons.1 hnd).1
      have hnd' : ms.Nodup := (List.nodup_cons.1 hnd).2
      rw [insertDefaults_cons]
      by_cases hc : (mi.find? (fun q => q.1 = m)).isSome
      · rw [if_pos hc, ih mi hnd', List.countP_cons]
        simp [hc]
      · rw [if_neg hc, ih (mi ++ [(m, 0)]) hnd', List.countP_cons]
        have hcong : ∀ x ∈ ms,
            (fun y => !(((mi ++ [(m, (0 : Int))]).find? (fun q => q.1 = y)).isSome)) x
              = (fun y => !((mi.find? (fun q => q.1 = y)).isSome)) x := by
          intro x hx
          simp only
          rw [find?_isSome_append_key]
          have : decide (m = x) = false := decide_eq_false (fun he => hm (he ▸ hx))
          simp [this]
        rw [countP_congr_mem ms hcong]
        have hc0 : (mi.find? (fun q => q.1 = m)).isSome = false := by
          cases hfind : (mi.find? (fun q => q.1 = m)).isSome
          · rfl
          · exact absurd hfind hc
        simp [hc0]
        omega

/-- C2 (amended): `UpdateCommitIndex(idx)` performs NO term check (the
`log[idx].term == current_term` guard lives in its caller `ReplicateLog`),
and its quorum test is `match_count >= match_index_.size()/2` over a map
into which every member absent from it — the leader itself included — is
default-inserted with match 0.  For indices `idx ≥ 1` and a fully
populated follower map this is exactly the spec's "strictly more than N/2
counting the leader" rule, so: commit advances (to `idx`, with a signal)
iff `2·|{m : m = leader ∨ match_index[m] ≥ idx}| > N` and
`idx > commit_index`; in every other case the result is exactly
`(commit_index, no signal)`. -/
theorem updateCommitIndex_amended (members : List String)
    (mi : List (String × Int)) (c idx : Int) (self : String)
    (hnd : members.Nodup) (hself : self ∈ members)
    (hkeysnd : (mi.map Prod.fst).Nodup)
    (hkeys : ∀ q ∈ mi, q.1 ∈ members)
    (hselfabs : mi.find? (fun q => q.1 = self) = none)
    (hidx : 1 ≤ idx) :
    (updateCommitIndex members mi c idx = (idx, true)
      ↔ (2 * (members.filter (fun s => s = self ∨ lookupMatch mi s ≥ idx)).length
            > members.length
          ∧ idx > c))
      ∧ (updateCommitIndex members mi c idx = (idx, true)
          ∨ updateCommitIndex members mi c idx = (c, false)) := by
  have hsize : (insertDefaults mi members).length = members.length := by
    rw [insertDefaults_length members mi hnd]
    have h1 := countP_keys members mi hnd hkeysnd hkeys
    have h2 := countP_split (fun m => ((mi.find? (fun q => q.1 = m)).isSome)) members
    omega
  have hcnt : (members.filter
        (fun s => lookupMatch (insertDefaults mi members) s ≥ idx)).length
      = members.countP (fun s => decide (lookupMatch mi s ≥ idx)) := by
    rw [← List.countP_eq_length_filter]
    apply countP_congr_mem
    intro x _
    rw [lookupMatch_insertDefaults]
  have hclaim : (members.filter
        (fun s => s = self ∨ lookupMatch mi s ≥ idx)).length
      = members.countP (fun s => decide (lookupMatch mi s ≥ idx)) + 1 := by
    rw [← List.countP_eq_length_filter]
    have hsplit : ∀ x ∈ members,
        (decide (x = self ∨ lookupMatch mi x ≥ idx) : Bool)
          = (fun s => decide (s = self) || decide (lookupMatch mi s ≥ idx)) x := by
      intro x _
      by_cases h1 : x = self <;> by_cases h2 : lookupMatch mi x ≥ idx <;>
        simp [h1, h2]
    rw [countP_congr_mem members hsplit,
      countP_or_self _ _ members hnd hself]
    have hPself : (decide (lookupMatch mi self ≥ idx) : Bool) = false := by
      have : lookupMatch mi self = 0 := by
        rw [lookupMatch, hselfabs]
        rfl
      rw [this]
      exact decide_eq_false (by omega)
    simp [hPself]
  constructor
  · unfold updateCommitIndex
    split_ifs with hcond
    · constructor
      · intro
        refine ⟨?_, hcond.2⟩
        rw [hclaim]
        rw [hcnt, hsize] at hcond
        omega
      · intro
        rfl
    · constructor
      · intro hfalse
        have : (false : Bool) = true := congrArg Prod.snd hfalse
        cases this
      · rintro ⟨hq, hgt⟩
        exfalso
        apply hcond
        refine ⟨?_, hgt⟩
        rw [hclaim] at hq
        rw [hcnt, hsize]
        omega
  · unfold updateCommitIndex
    split_ifs with hcond
    · exact Or.inl rfl
    · exact Or.inr rfl

/-- C2 witness: the amended statement at a concrete three-member cluster
with one follower acknowledged at the index. -/
theorem updateCommitIndex_amended_witness :
    (["A", "B", "C"] : List String).Nodup
      ∧ ("A" : String) ∈ (["A", "B", "C"] : List String)
      ∧ (updateCommitIndex ["A", "B", "C"] [("B", 7), ("C", -1)] 5 7 = (7, true)
          ↔ (2 * ((["A", "B", "C"] : List String).filter
                (fun s => s = "A" ∨ lookupMatch [("B", 7), ("C", -1)] s ≥ 7)).length
                > (["A", "B", "C"] : List String).length
              ∧ (7 : Int) > 5)) := by
  refine ⟨by decide, by decide, ?_⟩
  exact (updateCommitIndex_amended ["A", "B", "C"] [("B", 7), ("C", -1)] 5 7 "A"
    (by decide) (by decide) (by decide) (by decide) (by decide) (by decide)).1

end Ins